import Mathlib

/-!
Verification of the entropy-conditioning core of a hardware random number
generator written in Rust: the bit/byte codec, the Von Neumann debiaser, the
SHA3-256 whitening stage and the statistical quality assessor, all from
`src/utils.rs`.  Bits and bytes (`u8` in the source) are modelled as `Nat`;
where a property genuinely needs the `u8` range or the bit invariant, it is an
explicit hypothesis.  The `f64` arithmetic of the assessor is modelled over
`ℝ` with exact arithmetic.
-/

/-! Section: bit/byte codec (`bits_to_bytes`, `bytes_to_bits`) -/

/-- Inner loop of `bits_to_bytes`: `for (i, &bit) in chunk.iter().enumerate()
{ if bit == 1 { byte |= 1 << i; } }`, fold with running index `i` and
accumulator `byte`. -/
def packBits (chunk : List Nat) (i byte : Nat) : Nat :=
  match chunk with
  | [] => byte
  | bit :: rest => packBits rest (i + 1) (if bit == 1 then byte ||| (1 <<< i) else byte)

/-- Packs one chunk of at most 8 bits into a byte, LSB first. -/
def packByte (chunk : List Nat) : Nat :=
  packBits chunk 0 0

/-- Rust's `padded_bits.chunks(8)`: splits a list into consecutive chunks of
8, the final chunk possibly shorter.  Structural recursion so that the kernel
can evaluate it. -/
def chunks8 : List Nat → List (List Nat)
  | [] => []
  | b0 :: b1 :: b2 :: b3 :: b4 :: b5 :: b6 :: b7 :: rest =>
      [b0, b1, b2, b3, b4, b5, b6, b7] :: chunks8 rest
  | l => [l]

/-- The padded length computed at the top of `bits_to_bytes`. -/
def paddedLen (n : Nat) : Nat :=
  if n % 8 ≠ 0 then n + (8 - n % 8) else n

/-- Rust's `padded_bits`: the input resized to `paddedLen` with zeros appended
(`padded_bits.resize(padded_len, 0)`; the new length is never smaller). -/
def padBits (bits : List Nat) : List Nat :=
  bits ++ List.replicate (paddedLen bits.length - bits.length) 0

/-- Translation of `bits_to_bytes` (`src/utils.rs:78`): zero-pad to a multiple
of 8, then pack each chunk of 8 bits into a byte least-significant-bit
first. -/
def bits_to_bytes (bits : List Nat) : List Nat :=
  (chunks8 (padBits bits)).map packByte

/-- Inner loop of `bytes_to_bits` (and of the digest unpacking in
`hash_randomness`): `for i in 0..8 { bits.push((byte >> i) & 1); }`. -/
def unpackByte (byte : Nat) : List Nat :=
  (List.range 8).map (fun i => (byte >>> i) &&& 1)

/-- Translation of `bytes_to_bits` (`src/utils.rs:111`): emit 8 bits per byte,
least-significant-bit first. -/
def bytes_to_bits (bytes : List Nat) : List Nat :=
  bytes.flatMap unpackByte

/-! Section: Von Neumann debiaser (`von_neumann_debias`) -/

/-- The pair-scanning loop of `von_neumann_debias`
(`for i in (0..bits.len() - 1).step_by(2)`): reads the bits two at a time and
keeps the first bit of each unequal pair; a final unpaired bit is never
examined. -/
def pairScan : List Nat → List Nat
  | a :: b :: rest => (if a != b then [a] else []) ++ pairScan rest
  | _ => []

/-- Translation of `von_neumann_debias` (`src/utils.rs:12`): inputs of fewer
than 2 bits are returned unchanged; otherwise the pair scan runs, and if it
produced nothing on a non-empty input a single copy of `bits[0]` is pushed. -/
def von_neumann_debias (bits : List Nat) : List Nat :=
  if bits.length < 2 then bits
  else
    let result := pairScan bits
    if result = [] ∧ bits ≠ [] then [bits.getD 0 0]
    else result

/-! Section: SHA3-256 (the `sha3` crate's `Sha3_256`, FIPS 202)

The whitener calls an external crate; the permutation and sponge are embedded
here in full.  Lanes are 64-bit words modelled as `Nat` reduced mod `2 ^ 64`,
the state is a list of 25 lanes indexed by `x + 5 * y`. -/

/-- Modulus of a 64-bit lane. -/
def U64 : Nat := 2 ^ 64

/-- Left rotation of a 64-bit lane. -/
def rotl64 (n k : Nat) : Nat := ((n <<< k) ||| (n >>> (64 - k))) % U64

/-- Bitwise complement of a 64-bit lane. -/
def not64 (n : Nat) : Nat := n ^^^ (U64 - 1)

/-- Rotation offsets of the ρ step, indexed by `x + 5 * y`. -/
def keccakRho : List Nat :=
  [0, 1, 62, 28, 27] ++
    [36, 44, 6, 55, 20] ++
    [3, 10, 43, 25, 39] ++
    [41, 45, 15, 21, 8] ++
    [18, 2, 61, 56, 14]

/-- Round constants of the ι step. -/
def keccakRC : List Nat :=
  [0x0000000000000001, 0x0000000000008082, 0x800000000000808a] ++
    [0x8000000080008000, 0x000000000000808b, 0x0000000080000001] ++
    [0x8000000080008081, 0x8000000000008009, 0x000000000000008a] ++
    [0x0000000000000088, 0x0000000080008009, 0x000000008000000a] ++
    [0x000000008000808b, 0x800000000000008b, 0x8000000000008089] ++
    [0x8000000000008003, 0x8000000000008002, 0x8000000000000080] ++
    [0x000000000000800a, 0x800000008000000a, 0x8000000080008081] ++
    [0x8000000000008080, 0x0000000080000001, 0x8000000080008008]

/-- The θ step of Keccak-f[1600]. -/
def keccakTheta (A : List Nat) : List Nat :=
  let C := (List.range 5).map (fun x =>
    A.getD x 0 ^^^ A.getD (x + 5) 0 ^^^ A.getD (x + 10) 0 ^^^
      A.getD (x + 15) 0 ^^^ A.getD (x + 20) 0)
  let D := (List.range 5).map (fun x =>
    C.getD ((x + 4) % 5) 0 ^^^ rotl64 (C.getD ((x + 1) % 5) 0) 1)
  (List.range 25).map (fun i => A.getD i 0 ^^^ D.getD (i % 5) 0)

/-- The combined ρ and π steps of Keccak-f[1600]. -/
def keccakRhoPi (A : List Nat) : List Nat :=
  (List.range 25).foldl (fun B i =>
    let x := i % 5
    let y := i / 5
    B.set (y + 5 * ((2 * x + 3 * y) % 5)) (rotl64 (A.getD i 0) (keccakRho.getD i 0)))
    (List.replicate 25 0)

/-- The χ step of Keccak-f[1600]. -/
def keccakChi (B : List Nat) : List Nat :=
  (List.range 25).map (fun i =>
    let x := i % 5
    let y := i / 5
    B.getD i 0 ^^^ (not64 (B.getD ((x + 1) % 5 + 5 * y) 0) &&& B.getD ((x + 2) % 5 + 5 * y) 0))

/-- One round of Keccak-f[1600] (θ, ρ, π, χ, ι). -/
def keccakRound (A : List Nat) (r : Nat) : List Nat :=
  let A1 := keccakChi (keccakRhoPi (keccakTheta A))
  A1.set 0 (A1.getD 0 0 ^^^ keccakRC.getD r 0)

/-- The full 24-round Keccak-f[1600] permutation. -/
def keccakF (A : List Nat) : List Nat :=
  (List.range 24).foldl keccakRound A

/-- Little-endian 64-bit lane assembled from bytes `8*j .. 8*j+7` of a
block. -/
def leLane (block : List Nat) (j : Nat) : Nat :=
  (List.range 8).foldl (fun acc k => acc ||| (block.getD (8 * j + k) 0 <<< (8 * k))) 0

/-- Absorb one 136-byte block into the sponge state and permute. -/
def absorbBlock (st : List Nat) (block : List Nat) : List Nat :=
  keccakF ((List.range 25).map (fun j =>
    st.getD j 0 ^^^ (if j < 17 then leLane block j else 0)))

/-- SHA3 `pad10*1` padding with domain-separation suffix `0x06`, rate 136
bytes. -/
def sha3Pad (len : Nat) : List Nat :=
  let q := 136 - len % 136
  if q = 1 then [0x86]
  else 0x06 :: List.replicate (q - 2) 0 ++ [0x80]

/-- Splits the padded message into 136-byte rate blocks. -/
def chunks136 (l : List Nat) : List (List Nat) :=
  if l = [] then [] else l.take 136 :: chunks136 (l.drop 136)
termination_by l.length
decreasing_by
  simp only [List.length_drop]
  have h : l.length ≠ 0 := by
    simpa [List.length_eq_zero] using (by assumption : ¬l = [])
  omega

/-- SHA3-256 of a byte string: absorb all padded blocks, then squeeze the
first 32 bytes of the state (little-endian within each lane).  Checked against
FIPS 202 test vectors. -/
def sha3_256 (msg : List Nat) : List Nat :=
  let padded := msg ++ sha3Pad msg.length
  let finalState := (chunks136 padded).foldl absorbBlock (List.replicate 25 0)
  (List.range 32).map (fun i => (finalState.getD (i / 8) 0 >>> (8 * (i % 8))) &&& 255)

/-- Translation of `hash_randomness` (`src/utils.rs:47`): empty input is
returned as-is with no hash computed; otherwise the bits are packed to bytes,
hashed with SHA3-256 and the 32 digest bytes are unpacked LSB-first (the
unpacking loop is textually the body of `bytes_to_bits`). -/
def hash_randomness (bits : List Nat) : List Nat :=
  if bits = [] then []
  else
    let bytes := bits_to_bytes bits
    let result := sha3_256 bytes
    result.flatMap unpackByte

/-! Section: quality assessor (`estimate_entropy`, `quick_randomness_test`)

The assessor computes with `f64`; it is modelled here over `ℝ` with exact
arithmetic, `f64::log2` becoming `Real.logb 2`. -/

/-- The count `bits.iter().filter(|&&b| b == 1).count()` shared by the
assessor functions. -/
def onesCount (bits : List Nat) : Nat :=
  (bits.filter (fun b => b == 1)).length

/-- Translation of `estimate_entropy` (`src/utils.rs:130`): empty input gives
`0.0`; otherwise binary Shannon entropy of the observed one/zero frequencies,
each term guarded by a positivity test exactly as in the source. -/
noncomputable def estimate_entropy (bits : List Nat) : ℝ :=
  if bits = [] then 0
  else
    let ones := onesCount bits
    let zeros := bits.length - ones
    let p0 : ℝ := (zeros : ℝ) / (bits.length : ℝ)
    let p1 : ℝ := (ones : ℝ) / (bits.length : ℝ)
    let e1 : ℝ := if 0 < p0 then 0 - p0 * Real.logb 2 p0 else 0
    if 0 < p1 then e1 - p1 * Real.logb 2 p1 else e1

/-- The three-level quality verdict embedded in the result string of
`quick_randomness_test` (`"Good"`, `"Fair"`, `"Poor - Consider debiasing"`). -/
inductive Verdict
  | good
  | fair
  | poor
deriving DecidableEq

/-- Structured form of the string returned by `quick_randomness_test`: either
the `"Insufficient bits for testing"` message or the computed report with the
statistics that the source interpolates into its format string. -/
inductive TestResult
  | insufficient
  | report (bitCount ones zeros : Nat) (bias transitionRate entropy : ℝ) (verdict : Verdict)

/-- The transition-counting loop of `quick_randomness_test`
(`for i in 1..bits.len() { if bits[i] != bits[i-1] { transitions += 1; } }`). -/
def transitionCount (bits : List Nat) : Nat :=
  ((List.range' 1 (bits.length - 1) 1).filter
    (fun i => bits.getD i 0 != bits.getD (i - 1) 0)).length

/-- Translation of `quick_randomness_test` (`src/utils.rs:162`): fewer than
100 bits yields the insufficient-data result with no statistics computed;
otherwise mean, bias, transition rate, entropy and the thresholded verdict are
computed as in the source (string formatting is represented structurally). -/
noncomputable def quick_randomness_test (bits : List Nat) : TestResult :=
  if bits.length < 100 then TestResult.insufficient
  else
    let ones := onesCount bits
    let zeros := bits.length - ones
    let mean : ℝ := (ones : ℝ) / (bits.length : ℝ)
    let bias : ℝ := |mean - 0.5|
    let transitions := transitionCount bits
    let tr : ℝ := (transitions : ℝ) / ((bits.length - 1 : Nat) : ℝ)
    let entropy := estimate_entropy bits
    let verdict :=
      if bias < 0.05 ∧ entropy > 0.95 then Verdict.good
      else if bias < 0.1 ∧ entropy > 0.9 then Verdict.fair
      else Verdict.poor
    TestResult.report bits.length ones zeros bias tr entropy verdict

/-! Section: reference functions written from the specification text, used to
state the refinement claims against the translations above. -/

/-- Reference pair scan from the spec: positions `0-1, 2-3, ...` are examined
as non-overlapping pairs, the first element of each unequal pair is emitted,
equal pairs are discarded, and an odd trailing bit is never examined (there
are `len / 2` pairs). -/
def vnSpecScan (bits : List Nat) : List Nat :=
  (List.range (bits.length / 2)).flatMap (fun k =>
    if bits.getD (2 * k) 0 ≠ bits.getD (2 * k + 1) 0 then [bits.getD (2 * k) 0] else [])

/-- Reference bias from the spec: `|mean − 0.5|` with the mean the fraction of
ones. -/
noncomputable def specBias (bits : List Nat) : ℝ :=
  |(onesCount bits : ℝ) / (bits.length : ℝ) - 1 / 2|

/-- Reference transition count from the spec: the number of positions
`i ≥ 1` with `bit[i] ≠ bit[i-1]`. -/
def specTransitions (bits : List Nat) : Nat :=
  ((List.range bits.length).filter
    (fun i => decide (1 ≤ i) && (bits.getD i 0 != bits.getD (i - 1) 0))).length

/-- Reference verdict thresholds from the spec: Good if `bias < 0.05` and
`entropy > 0.95`; Fair if `bias < 0.10` and `entropy > 0.90`; otherwise
Poor. -/
noncomputable def specVerdict (bias entropy : ℝ) : Verdict :=
  if bias < 0.05 ∧ entropy > 0.95 then Verdict.good
  else if bias < 0.1 ∧ entropy > 0.9 then Verdict.fair
  else Verdict.poor

/-! Section: bounds-checked variants.  These model the partiality of the Rust
code: every slice index `bits[i]` becomes a lookup that fails (`none`) when
out of bounds, and a `u8` shift `1 << i` fails when `i ≥ 8` (shift overflow).
Totality of the stage is the statement that they always return `some`. -/

/-- The pair-scan loop with explicit bounds checks: runs while
`i < bits.len() - 1`, reads `bits[i]` and `bits[i + 1]`, steps by 2. -/
def vnLoopChecked (bits : List Nat) (i : Nat) (acc : List Nat) : Option (List Nat) :=
  if _h : i < bits.length - 1 then
    match bits[i]?, bits[i + 1]? with
    | some a, some b => vnLoopChecked bits (i + 2) (if a != b then acc ++ [a] else acc)
    | _, _ => none
  else some acc
termination_by bits.length - i
decreasing_by omega

/-- Bounds-checked `von_neumann_debias`: the early return, the indexed pair
scan and the guarded fallback access `bits[0]`. -/
def von_neumann_debias_checked (bits : List Nat) : Option (List Nat) :=
  if bits.length < 2 then some bits
  else
    match vnLoopChecked bits 0 [] with
    | none => none
    | some result =>
      if result = [] ∧ bits ≠ [] then
        match bits[0]? with
        | some a => some (result ++ [a])
        | none => none
      else some result

/-- The byte-packing loop with the `u8` shift-overflow check: `1 << i` on a
`u8` is only defined for `i < 8`. -/
def packBitsChecked (chunk : List Nat) (i byte : Nat) : Option Nat :=
  match chunk with
  | [] => some byte
  | bit :: rest =>
      if i < 8 then
        packBitsChecked rest (i + 1) (if bit == 1 then byte ||| (1 <<< i) else byte)
      else none

/-- Bounds-checked `bits_to_bytes`: packs every chunk with the checked
loop. -/
def bits_to_bytes_checked (bits : List Nat) : Option (List Nat) :=
  (chunks8 (padBits bits)).mapM (fun c => packBitsChecked c 0 0)

/-- Bounds-checked `hash_randomness`: the only fallible step is the byte
packing; hashing and unpacking are loop-free of index accesses. -/
def hash_randomness_checked (bits : List Nat) : Option (List Nat) :=
  if bits = [] then some []
  else
    match bits_to_bytes_checked bits with
    | none => none
    | some bytes => some ((sha3_256 bytes).flatMap unpackByte)

/-! Section: codec lemmas. -/

set_option maxRecDepth 10000 in
/-- Unpacking after packing is the identity on a literal chunk of 8 bits. -/
lemma unpack_pack8_lit :
    ∀ a b c d e f g h : Fin 2,
      unpackByte (packByte [a.val, b.val, c.val, d.val, e.val, f.val, g.val, h.val]) =
        [a.val, b.val, c.val, d.val, e.val, f.val, g.val, h.val] := by
  decide

set_option maxRecDepth 10000 in
/-- Packing after unpacking is the identity on a byte value. -/
lemma pack_unpack_byte : ∀ b < 256, packByte (unpackByte b) = b := by
  decide

/-- A list of length 8 is a literal 8-element list. -/
lemma length_eq_eight (c : List Nat) (h : c.length = 8) :
    ∃ b0 b1 b2 b3 b4 b5 b6 b7, c = [b0, b1, b2, b3, b4, b5, b6, b7] := by
  rcases c with _ | ⟨b0, c⟩
  · simp only [List.length_nil] at h; omega
  rcases c with _ | ⟨b1, c⟩
  · simp only [List.length_cons, List.length_nil] at h; omega
  rcases c with _ | ⟨b2, c⟩
  · simp only [List.length_cons, List.length_nil] at h; omega
  rcases c with _ | ⟨b3, c⟩
  · simp only [List.length_cons, List.length_nil] at h; omega
  rcases c with _ | ⟨b4, c⟩
  · simp only [List.length_cons, List.length_nil] at h; omega
  rcases c with _ | ⟨b5, c⟩
  · simp only [List.length_cons, List.length_nil] at h; omega
  rcases c with _ | ⟨b6, c⟩
  · simp only [List.length_cons, List.length_nil] at h; omega
  rcases c with _ | ⟨b7, c⟩
  · simp only [List.length_cons, List.length_nil] at h; omega
  rcases c with _ | ⟨b8, c⟩
  · exact ⟨b0, b1, b2, b3, b4, b5, b6, b7, rfl⟩
  · simp only [List.length_cons] at h
    omega

/-- Splitting off a full chunk of 8. -/
lemma chunks8_eq_append (c rest : List Nat) (h : c.length = 8) :
    chunks8 (c ++ rest) = c :: chunks8 rest := by
  obtain ⟨b0, b1, b2, b3, b4, b5, b6, b7, rfl⟩ := length_eq_eight c h
  rfl

/-- Unpack-of-pack identity for any chunk of 8 bits. -/
lemma unpack_pack8 (c : List Nat) (h : c.length = 8) (hb : ∀ x ∈ c, x < 2) :
    unpackByte (packByte c) = c := by
  obtain ⟨b0, b1, b2, b3, b4, b5, b6, b7, rfl⟩ := length_eq_eight c h
  exact unpack_pack8_lit ⟨b0, hb _ (by simp)⟩ ⟨b1, hb _ (by simp)⟩ ⟨b2, hb _ (by simp)⟩
    ⟨b3, hb _ (by simp)⟩ ⟨b4, hb _ (by simp)⟩ ⟨b5, hb _ (by simp)⟩ ⟨b6, hb _ (by simp)⟩
    ⟨b7, hb _ (by simp)⟩

/-- Length of an unpacked byte. -/
lemma unpackByte_length (b : Nat) : (unpackByte b).length = 8 := by
  simp [unpackByte]

/-- Every bit produced by `unpackByte` is 0 or 1. -/
lemma unpackByte_lt_two (b : Nat) : ∀ x ∈ unpackByte b, x < 2 := by
  intro x hx
  simp only [unpackByte, List.mem_map, List.mem_range] at hx
  obtain ⟨i, _, rfl⟩ := hx
  have h1 : (b >>> i) &&& 1 ≤ 1 := Nat.and_le_right
  omega

/-- Unfolding `bytes_to_bits` over a cons cell. -/
lemma bytes_to_bits_cons (b : Nat) (t : List Nat) :
    bytes_to_bits (b :: t) = unpackByte b ++ bytes_to_bits t := by
  simp [bytes_to_bits]

/-- Length of `bytes_to_bits`. -/
lemma bytes_to_bits_length (B : List Nat) : (bytes_to_bits B).length = 8 * B.length := by
  induction B with
  | nil => rfl
  | cons b t ih =>
    rw [bytes_to_bits_cons, List.length_append, unpackByte_length, ih, List.length_cons]
    ring

/-- The padded length is a multiple of 8. -/
lemma paddedLen_mod (n : Nat) : paddedLen n % 8 = 0 := by
  unfold paddedLen
  split <;> omega

/-- Padding never shrinks. -/
lemma le_paddedLen (n : Nat) : n ≤ paddedLen n := by
  unfold paddedLen
  split <;> omega

/-- Length of the padded bit list. -/
lemma padBits_length (bits : List Nat) : (padBits bits).length = paddedLen bits.length := by
  have h := le_paddedLen bits.length
  simp [padBits]
  omega

/-- Padding a list whose length is a multiple of 8 does nothing. -/
lemma padBits_eq_self (bits : List Nat) (h : bits.length % 8 = 0) : padBits bits = bits := by
  unfold padBits paddedLen
  simp [h]

/-- Padding preserves the bit range invariant. -/
lemma padBits_lt_two (bits : List Nat) (hb : ∀ x ∈ bits, x < 2) :
    ∀ x ∈ padBits bits, x < 2 := by
  intro x hx
  rcases List.mem_append.mp hx with h | h
  · exact hb x h
  · have := List.eq_of_mem_replicate h
    omega

/-- Round trip over any bit list whose length is a multiple of 8. -/
lemma roundtrip_chunks (S : List Nat) (hmod : S.length % 8 = 0) (hb : ∀ x ∈ S, x < 2) :
    bytes_to_bits ((chunks8 S).map packByte) = S := by
  by_cases hS : S = []
  · subst hS; rfl
  · have h1 : 0 < S.length := List.length_pos.mpr hS
    have h8 : 8 ≤ S.length := by omega
    have hc : (S.take 8).length = 8 := by
      rw [List.length_take]
      omega
    have hsplit : S.take 8 ++ S.drop 8 = S := List.take_append_drop 8 S
    have hdmod : (S.drop 8).length % 8 = 0 := by
      rw [List.length_drop]
      omega
    have hdb : ∀ x ∈ S.drop 8, x < 2 := fun x hx => hb x (List.mem_of_mem_drop hx)
    have ih := roundtrip_chunks (S.drop 8) hdmod hdb
    calc bytes_to_bits ((chunks8 S).map packByte)
        = bytes_to_bits ((chunks8 (S.take 8 ++ S.drop 8)).map packByte) := by rw [hsplit]
      _ = bytes_to_bits (packByte (S.take 8) :: (chunks8 (S.drop 8)).map packByte) := by
          rw [chunks8_eq_append _ _ hc, List.map_cons]
      _ = unpackByte (packByte (S.take 8)) ++ bytes_to_bits ((chunks8 (S.drop 8)).map packByte) :=
          bytes_to_bits_cons _ _
      _ = S.take 8 ++ S.drop 8 := by
          rw [unpack_pack8 _ hc (fun x hx => hb x (List.mem_of_mem_take hx)), ih]
      _ = S := hsplit
termination_by S.length
decreasing_by
  simp only [List.length_drop]
  omega

/-- The codec round trip lands on the padded input. -/
lemma roundtrip_padBits (S : List Nat) (hb : ∀ x ∈ S, x < 2) :
    bytes_to_bits (bits_to_bytes S) = padBits S := by
  unfold bits_to_bytes
  exact roundtrip_chunks (padBits S)
    (by rw [padBits_length]; exact paddedLen_mod _) (padBits_lt_two S hb)

/-- Chunking a concatenation of unpacked bytes recovers the per-byte chunks. -/
lemma chunks8_flatMap (B : List Nat) :
    chunks8 (B.flatMap unpackByte) = B.map unpackByte := by
  induction B with
  | nil => rfl
  | cons b t ih =>
    rw [List.flatMap_cons, chunks8_eq_append _ _ (unpackByte_length b), ih, List.map_cons]

/-- Positional form of `bytes_to_bits`: bit `i` of byte `j` lands at position
`8 * j + i`. -/
lemma bytes_to_bits_getD (B : List Nat) (j i : Nat) (hi : i < 8) (hj : j < B.length) :
    (bytes_to_bits B).getD (8 * j + i) 0 = (B.getD j 0 >>> i) &&& 1 := by
  induction B generalizing j with
  | nil => simp at hj
  | cons b t ih =>
    rw [bytes_to_bits_cons]
    cases j with
    | zero =>
      have hlt : 8 * 0 + i < (unpackByte b).length := by
        rw [unpackByte_length]; omega
      rw [List.getD_append _ _ _ _ hlt]
      have : (8 : Nat) * 0 + i = i := by omega
      rw [this, List.getD_cons_zero]
      rw [List.getD_eq_getElem _ _ (by rw [unpackByte_length]; omega)]
      simp [unpackByte]
    | succ j' =>
      have harith : 8 * (j' + 1) + i = (unpackByte b).length + (8 * j' + i) := by
        rw [unpackByte_length]; omega
      rw [harith, List.getD_append_right _ _ _ _ (by omega)]
      have : (unpackByte b).length + (8 * j' + i) - (unpackByte b).length = 8 * j' + i := by
        omega
      rw [this, List.getD_cons_succ]
      exact ih j' (by simpa using hj)

/-- The bit-side claim C4: packing inverts unpacking on every byte buffer
(the elements being bytes, i.e. below 256, is the `u8` typing of the Rust
slice). -/
theorem claim_C4_bytes_roundtrip (B : List Nat) (hB : ∀ b ∈ B, b < 256) :
    bits_to_bytes (bytes_to_bits B) = B := by
  unfold bits_to_bytes
  rw [padBits_eq_self _ (by rw [bytes_to_bits_length]; omega)]
  rw [show bytes_to_bits B = B.flatMap unpackByte from rfl, chunks8_flatMap, List.map_map]
  trans B.map id
  · exact List.map_congr_left (fun b hb => pack_unpack_byte b (hB b hb))
  · exact List.map_id B

/-- Witness for C4 at a concrete buffer. -/
theorem claim_C4_witness :
    (∀ b ∈ ([0, 255, 85] : List Nat), b < 256) ∧
      bits_to_bytes (bytes_to_bits [0, 255, 85]) = [0, 255, 85] :=
  ⟨by decide, claim_C4_bytes_roundtrip [0, 255, 85] (by decide)⟩

/-- Explicit form of the padding tail. -/
lemma padBits_eq_append (bits : List Nat) (h : bits.length % 8 ≠ 0) :
    padBits bits = bits ++ List.replicate (8 - bits.length % 8) 0 := by
  have hp : paddedLen bits.length - bits.length = 8 - bits.length % 8 := by
    unfold paddedLen
    rw [if_pos h]
    omega
  unfold padBits
  rw [hp]

/-- The byte-side claim C5: the round trip is the identity exactly on lengths
divisible by 8, and otherwise appends the zero tail and strictly grows. -/
theorem claim_C5_bits_roundtrip (S : List Nat) (hS : ∀ x ∈ S, x = 0 ∨ x = 1) :
    (S.length % 8 = 0 → bytes_to_bits (bits_to_bytes S) = S) ∧
    (S.length % 8 ≠ 0 →
      bytes_to_bits (bits_to_bytes S) = S ++ List.replicate (8 - S.length % 8) 0 ∧
      S.length < (bytes_to_bits (bits_to_bytes S)).length) := by
  have hb : ∀ x ∈ S, x < 2 := by
    intro x hx
    rcases hS x hx with h | h <;> omega
  have hrt := roundtrip_padBits S hb
  constructor
  · intro h
    rw [hrt, padBits_eq_self _ h]
  · intro h
    refine ⟨by rw [hrt, padBits_eq_append _ h], ?_⟩
    rw [hrt, padBits_length]
    have h8 : S.length % 8 < 8 := Nat.mod_lt _ (by omega)
    unfold paddedLen
    rw [if_pos h]
    omega

/-- Witness for C5 at concrete inputs for both branches. -/
theorem claim_C5_witness :
    (∀ x ∈ ([0, 1, 1, 0, 0, 1, 1, 0] : List Nat), x = 0 ∨ x = 1) ∧
      bytes_to_bits (bits_to_bytes [0, 1, 1, 0, 0, 1, 1, 0]) = [0, 1, 1, 0, 0, 1, 1, 0] ∧
      (∀ x ∈ ([1, 1, 0] : List Nat), x = 0 ∨ x = 1) ∧
      bytes_to_bits (bits_to_bytes [1, 1, 0]) = [1, 1, 0] ++ List.replicate 5 0 ∧
      ([1, 1, 0] : List Nat).length < (bytes_to_bits (bits_to_bytes [1, 1, 0])).length :=
  ⟨by decide,
   (claim_C5_bits_roundtrip [0, 1, 1, 0, 0, 1, 1, 0] (by decide)).1 (by decide),
   by decide,
   ((claim_C5_bits_roundtrip [1, 1, 0] (by decide)).2 (by decide)).1,
   ((claim_C5_bits_roundtrip [1, 1, 0] (by decide)).2 (by decide)).2⟩

/-- Padding the input again changes nothing. -/
lemma bits_to_bytes_padBits (bits : List Nat) :
    bits_to_bytes (padBits bits) = bits_to_bytes bits := by
  unfold bits_to_bytes
  rw [padBits_eq_self (padBits bits) (by rw [padBits_length]; exact paddedLen_mod _)]

/-- Claim C6: LSB-first packing.  Empty input maps to an empty buffer, the
spec's literal example holds, padding is by synthetic zeros appended up to the
next multiple of 8, and bit `i` of output byte `j` is the input bit at
position `8 * j + i`. -/
theorem claim_C6_lsb_first :
    bits_to_bytes [] = [] ∧
    bits_to_bytes [1, 0, 1, 0, 1, 0, 1, 0] = [85] ∧
    (∀ bits : List Nat, bits.length % 8 ≠ 0 →
      bits_to_bytes bits = bits_to_bytes (bits ++ List.replicate (8 - bits.length % 8) 0)) ∧
    (∀ S : List Nat, (∀ x ∈ S, x = 0 ∨ x = 1) → ∀ j i, i < 8 → 8 * j + i < S.length →
      ((bits_to_bytes S).getD j 0 >>> i) &&& 1 = S.getD (8 * j + i) 0) := by
  refine ⟨by decide, by decide, ?_, ?_⟩
  · intro bits h
    rw [← padBits_eq_append bits h, bits_to_bytes_padBits]
  · intro S hS j i hi hidx
    have hb : ∀ x ∈ S, x < 2 := by
      intro x hx
      rcases hS x hx with h | h <;> omega
    have hrt := roundtrip_padBits S hb
    have hlen : (padBits S).length = 8 * (bits_to_bytes S).length := by
      rw [← hrt, bytes_to_bits_length]
    have hSlen : S.length ≤ (padBits S).length := by
      rw [padBits_length]
      exact le_paddedLen _
    have hj : j < (bits_to_bytes S).length := by omega
    rw [← bytes_to_bits_getD (bits_to_bytes S) j i hi hj, hrt]
    unfold padBits
    exact List.getD_append _ _ _ _ hidx

/-- Witness for C6 at a concrete input: bit 1 of output byte 1 of a 13-bit
input equals input bit 9. -/
theorem claim_C6_witness :
    (∀ x ∈ ([1, 0, 0, 0, 0, 0, 0, 0, 0, 1, 0, 0, 0] : List Nat), x = 0 ∨ x = 1) ∧
      ((bits_to_bytes [1, 0, 0, 0, 0, 0, 0, 0, 0, 1, 0, 0, 0]).getD 1 0 >>> 1) &&& 1 =
        ([1, 0, 0, 0, 0, 0, 0, 0, 0, 1, 0, 0, 0] : List Nat).getD 9 0 :=
  ⟨by decide,
   claim_C6_lsb_first.2.2.2 [1, 0, 0, 0, 0, 0, 0, 0, 0, 1, 0, 0, 0] (by decide) 1 1
     (by decide) (by decide)⟩

/-- The normalization applied bitwise by the packing test `bit == 1`. -/
def normBit (b : Nat) : Nat :=
  if b == 1 then 1 else 0

/-- The packing loop only tests `bit == 1`, so normalizing first changes
nothing. -/
lemma packBits_map_norm (chunk : List Nat) (i byte : Nat) :
    packBits (chunk.map normBit) i byte = packBits chunk i byte := by
  induction chunk generalizing i byte with
  | nil => rfl
  | cons bit rest ih =>
    rw [List.map_cons]
    show packBits (rest.map normBit) (i + 1)
        (if normBit bit == 1 then byte ||| (1 <<< i) else byte) = _
    have hcond : (normBit bit == 1) = (bit == 1) := by
      unfold normBit
      cases h : bit == 1 <;> simp [h]
    rw [hcond]
    exact ih _ _

/-- Chunkwise packing is invariant under normalization, on lengths divisible
by 8. -/
lemma chunks8_pack_norm (P : List Nat) (h : P.length % 8 = 0) :
    (chunks8 (P.map normBit)).map packByte = (chunks8 P).map packByte := by
  by_cases hP : P = []
  · subst hP; rfl
  · have h1 : 0 < P.length := List.length_pos.mpr hP
    have h8 : 8 ≤ P.length := by omega
    have hc : (P.take 8).length = 8 := by rw [List.length_take]; omega
    have hcm : ((P.take 8).map normBit).length = 8 := by rw [List.length_map]; exact hc
    have hdmod : (P.drop 8).length % 8 = 0 := by rw [List.length_drop]; omega
    have ih := chunks8_pack_norm (P.drop 8) hdmod
    calc (chunks8 (P.map normBit)).map packByte
        = (chunks8 ((P.take 8 ++ P.drop 8).map normBit)).map packByte := by
          rw [List.take_append_drop]
      _ = (chunks8 ((P.take 8).map normBit ++ (P.drop 8).map normBit)).map packByte := by
          rw [List.map_append]
      _ = packByte ((P.take 8).map normBit) :: (chunks8 ((P.drop 8).map normBit)).map packByte := by
          rw [chunks8_eq_append _ _ hcm, List.map_cons]
      _ = packByte (P.take 8) :: (chunks8 (P.drop 8)).map packByte := by
          rw [ih]
          show packBits ((P.take 8).map normBit) 0 0 :: _ = _
          rw [packBits_map_norm]
          rfl
      _ = (chunks8 (P.take 8 ++ P.drop 8)).map packByte := by
          rw [chunks8_eq_append _ _ hc, List.map_cons]
      _ = (chunks8 P).map packByte := by rw [List.take_append_drop]
termination_by P.length
decreasing_by
  simp only [List.length_drop]
  omega

/-- Padding commutes with normalization. -/
lemma padBits_map_norm (S : List Nat) :
    padBits (S.map normBit) = (padBits S).map normBit := by
  unfold padBits
  rw [List.length_map, List.map_append, List.map_replicate]
  rfl

/-- Claim C10: `bits_to_bytes` validates nothing — only an element equal to 1
sets a bit, every other value is packed as 0, so the round trip differs from
the input at any position holding a value outside `{0, 1}`. -/
theorem claim_C10_no_validation :
    (∀ S : List Nat, bits_to_bytes S = bits_to_bytes (S.map normBit)) ∧
    (∀ (S : List Nat) (p : Nat), p < S.length → S.getD p 0 ≠ 0 → S.getD p 0 ≠ 1 →
      (bytes_to_bits (bits_to_bytes S)).getD p 0 = 0 ∧
      (bytes_to_bits (bits_to_bytes S)).getD p 0 ≠ S.getD p 0) := by
  have hnorm : ∀ S : List Nat, bits_to_bytes S = bits_to_bytes (S.map normBit) := by
    intro S
    unfold bits_to_bytes
    rw [padBits_map_norm]
    exact (chunks8_pack_norm (padBits S) (by rw [padBits_length]; exact paddedLen_mod _)).symm
  refine ⟨hnorm, ?_⟩
  intro S p hp h0 h1
  have hb : ∀ x ∈ S.map normBit, x < 2 := by
    intro x hx
    rw [List.mem_map] at hx
    obtain ⟨b, _, rfl⟩ := hx
    unfold normBit
    cases b == 1 <;> simp
  have hrt := roundtrip_padBits (S.map normBit) hb
  have hval : (bytes_to_bits (bits_to_bytes S)).getD p 0 = 0 := by
    rw [hnorm S, hrt]
    unfold padBits
    rw [List.getD_append _ _ _ _ (by rw [List.length_map]; exact hp)]
    rw [List.getD_eq_getElem _ _ (by rw [List.length_map]; exact hp), List.getElem_map]
    rw [← List.getD_eq_getElem _ 0 hp]
    unfold normBit
    have : (S.getD p 0 == 1) = false := beq_eq_false_iff_ne.mpr h1
    rw [this]
    rfl
  exact ⟨hval, by rw [hval]; exact fun h => h0 h.symm⟩

/-- Witness for C10: the out-of-range value 5 is packed as a 0 bit and the
round trip differs there. -/
theorem claim_C10_witness :
    (0 : Nat) < ([5] : List Nat).length ∧
      (bytes_to_bits (bits_to_bytes [5])).getD 0 0 = 0 ∧
      (bytes_to_bits (bits_to_bytes [5])).getD 0 0 ≠ ([5] : List Nat).getD 0 0 :=
  ⟨by decide,
   (claim_C10_no_validation.2 [5] 0 (by decide) (by decide) (by decide)).1,
   (claim_C10_no_validation.2 [5] 0 (by decide) (by decide) (by decide)).2⟩

/-! Section: Von Neumann debiaser lemmas. -/

/-- The structural pair scan equals the spec's position-indexed pair scan. -/
lemma pairScan_eq_spec (bits : List Nat) : pairScan bits = vnSpecScan bits := by
  match bits with
  | [] => rfl
  | [a] =>
    show ([] : List Nat) = vnSpecScan [a]
    simp [vnSpecScan]
  | a :: b :: rest =>
    have ih := pairScan_eq_spec rest
    show (if a != b then [a] else []) ++ pairScan rest = _
    unfold vnSpecScan
    have hlen : (a :: b :: rest).length / 2 = rest.length / 2 + 1 := by
      simp only [List.length_cons]
      omega
    rw [hlen, List.range_succ_eq_map, List.flatMap_cons, List.flatMap_map]
    have hhead :
        (if (a :: b :: rest).getD (2 * 0) 0 ≠ (a :: b :: rest).getD (2 * 0 + 1) 0
          then [(a :: b :: rest).getD (2 * 0) 0] else [])
          = (if a != b then [a] else []) := by
      simp only [Nat.mul_zero, List.getD_cons_zero, Nat.zero_add, List.getD_cons_succ,
        List.getD_cons_zero, bne_iff_ne]
    have htail :
        (fun k => if (a :: b :: rest).getD (2 * Nat.succ k) 0 ≠
              (a :: b :: rest).getD (2 * Nat.succ k + 1) 0
            then [(a :: b :: rest).getD (2 * Nat.succ k) 0] else [])
          = (fun k => if rest.getD (2 * k) 0 ≠ rest.getD (2 * k + 1) 0
            then [rest.getD (2 * k) 0] else []) := by
      funext k
      have h2 : 2 * Nat.succ k = 2 * k + 1 + 1 := by omega
      rw [h2, List.getD_cons_succ, List.getD_cons_succ, List.getD_cons_succ,
        List.getD_cons_succ]
    rw [hhead, htail, ih]
    rfl

/-- Claim C1: the debiaser implements the spec's reference function — pairs
at positions 0-1, 2-3, ..., first element of each unequal pair emitted, equal
pairs and an odd trailing bit discarded, short inputs returned unchanged, and
the single-bit fallback copying `bits[0]` when the scan is empty. -/
theorem claim_C1_debias_reference (bits : List Nat) :
    (bits.length < 2 → von_neumann_debias bits = bits) ∧
    (2 ≤ bits.length → von_neumann_debias bits =
      (if vnSpecScan bits = [] then [bits.getD 0 0] else vnSpecScan bits)) ∧
    von_neumann_debias [0, 1, 1, 0, 1, 1, 0, 0] = [0, 1] ∧
    von_neumann_debias [0, 0, 0, 0] = [0] := by
  refine ⟨?_, ?_, by decide, by decide⟩
  · intro h
    unfold von_neumann_debias
    rw [if_pos h]
  · intro h
    have hne : bits ≠ [] := by
      intro h'
      rw [h'] at h
      simp at h
    unfold von_neumann_debias
    rw [if_neg (by omega)]
    simp only [← pairScan_eq_spec]
    by_cases hp : pairScan bits = []
    · rw [if_pos ⟨hp, hne⟩, if_pos hp]
    · rw [if_neg (fun hc => hp hc.1), if_neg hp]

/-- Witness for C1: both branches at concrete inputs. -/
theorem claim_C1_witness :
    (([1] : List Nat).length < 2 ∧ von_neumann_debias [1] = [1]) ∧
      (2 ≤ ([0, 0, 0, 0] : List Nat).length ∧
        von_neumann_debias [0, 0, 0, 0] =
          (if vnSpecScan [0, 0, 0, 0] = [] then [([0, 0, 0, 0] : List Nat).getD 0 0]
            else vnSpecScan [0, 0, 0, 0])) :=
  ⟨⟨by decide, (claim_C1_debias_reference [1]).1 (by decide)⟩,
   ⟨by decide, (claim_C1_debias_reference [0, 0, 0, 0]).2.1 (by decide)⟩⟩

/-- Every element the pair scan emits is an element of the input. -/
lemma pairScan_mem (bits : List Nat) (x : Nat) (hx : x ∈ pairScan bits) : x ∈ bits := by
  match bits with
  | [] => simp [pairScan] at hx
  | [a] => simp [pairScan] at hx
  | a :: b :: rest =>
    rw [show pairScan (a :: b :: rest) = (if a != b then [a] else []) ++ pairScan rest from rfl]
      at hx
    rcases List.mem_append.mp hx with h | h
    · by_cases hab : a != b
      · rw [if_pos hab] at h
        simp only [List.mem_singleton] at h
        subst h
        simp
      · rw [if_neg hab] at h
        simp at h
    · have := pairScan_mem rest x h
      simp [this]

/-- Every element the debiaser outputs is an element of the input. -/
lemma von_neumann_debias_mem (bits : List Nat) (x : Nat)
    (hx : x ∈ von_neumann_debias bits) : x ∈ bits := by
  unfold von_neumann_debias at hx
  by_cases hlen : bits.length < 2
  · rwa [if_pos hlen] at hx
  · rw [if_neg hlen] at hx
    simp only at hx
    by_cases hc : pairScan bits = [] ∧ bits ≠ []
    · rw [if_pos hc] at hx
      simp only [List.mem_singleton] at hx
      subst hx
      have h0 : 0 < bits.length := by omega
      rw [List.getD_eq_getElem _ _ h0]
      exact List.getElem_mem h0
    · rw [if_neg hc] at hx
      exact pairScan_mem bits x hx

/-- Claim C9: the `{0, 1}` invariant.  `bytes_to_bits` and `hash_randomness`
produce only 0/1 unconditionally (every emitted value is `(byte >> i) & 1`),
and the debiaser only copies input elements, so it preserves the
invariant. -/
theorem claim_C9_bit_invariant (B bits : List Nat) (x : Nat) :
    (x ∈ bytes_to_bits B → x = 0 ∨ x = 1) ∧
    (x ∈ hash_randomness bits → x = 0 ∨ x = 1) ∧
    (x ∈ von_neumann_debias bits → x ∈ bits) ∧
    ((∀ y ∈ bits, y = 0 ∨ y = 1) → x ∈ von_neumann_debias bits → x = 0 ∨ x = 1) := by
  have hbb : ∀ C : List Nat, x ∈ bytes_to_bits C → x = 0 ∨ x = 1 := by
    intro C hx
    rw [bytes_to_bits, List.mem_flatMap] at hx
    obtain ⟨b, _, hb⟩ := hx
    have := unpackByte_lt_two b x hb
    omega
  refine ⟨hbb B, ?_, von_neumann_debias_mem bits x, ?_⟩
  · intro hx
    unfold hash_randomness at hx
    by_cases hb : bits = []
    · rw [if_pos hb] at hx
      simp at hx
    · rw [if_neg hb] at hx
      exact hbb _ hx
  · intro hinv hx
    exact hinv x (von_neumann_debias_mem bits x hx)

/-- Witness for C9 at concrete inputs. -/
theorem claim_C9_witness :
    ((0 : Nat) ∈ bytes_to_bits [5]) ∧ ((0 : Nat) = 0 ∨ (0 : Nat) = 1) ∧
      ((0 : Nat) ∈ von_neumann_debias [0, 1]) ∧ ((0 : Nat) ∈ ([0, 1] : List Nat)) :=
  ⟨by decide,
   (claim_C9_bit_invariant [5] [0, 1] 0).1 (by decide),
   by decide,
   (claim_C9_bit_invariant [5] [0, 1] 0).2.2.1 (by decide)⟩

/-! Section: totality of the conditioning stages (claim C8). -/

/-- The pair scan of a list with at most one element is empty. -/
lemma pairScan_short (l : List Nat) (h : l.length ≤ 1) : pairScan l = [] := by
  match l with
  | [] => rfl
  | [a] => rfl
  | a :: b :: rest => simp at h

/-- The checked index loop never fails and computes the pair scan of the
remaining suffix. -/
lemma vnLoopChecked_eq (bits : List Nat) (i : Nat) (acc : List Nat) :
    vnLoopChecked bits i acc = some (acc ++ pairScan (bits.drop i)) := by
  rw [vnLoopChecked]
  by_cases h : i < bits.length - 1
  · rw [dif_pos h]
    have hi : i < bits.length := by omega
    have hi1 : i + 1 < bits.length := by omega
    rw [List.getElem?_eq_getElem hi, List.getElem?_eq_getElem hi1]
    have hdrop : bits.drop i = bits[i] :: bits[i + 1] :: bits.drop (i + 2) := by
      rw [List.drop_eq_getElem_cons hi, List.drop_eq_getElem_cons hi1]
    rw [hdrop]
    show vnLoopChecked bits (i + 2) _ = _
    rw [vnLoopChecked_eq bits (i + 2)]
    rw [show pairScan (bits[i] :: bits[i + 1] :: bits.drop (i + 2)) =
      (if bits[i] != bits[i + 1] then [bits[i]] else []) ++ pairScan (bits.drop (i + 2))
      from rfl]
    by_cases hab : bits[i] != bits[i + 1]
    · rw [if_pos hab, if_pos hab, List.append_assoc]
    · rw [if_neg hab, if_neg hab, List.nil_append]
  · rw [dif_neg h]
    have hshort : (bits.drop i).length ≤ 1 := by
      rw [List.length_drop]
      omega
    rw [pairScan_short _ hshort, List.append_nil]
termination_by bits.length - i
decreasing_by omega

/-- The checked packing loop never fails on chunks that fit in a byte. -/
lemma packBitsChecked_eq (chunk : List Nat) (i byte : Nat) (h : i + chunk.length ≤ 8) :
    packBitsChecked chunk i byte = some (packBits chunk i byte) := by
  induction chunk generalizing i byte with
  | nil => rfl
  | cons bit rest ih =>
    show (if i < 8 then _ else none) = _
    rw [if_pos (by simp at h; omega)]
    exact ih _ _ (by simp at h ⊢; omega)

/-- Every chunk produced from a list of length divisible by 8 has length at
most 8 (in fact exactly 8). -/
lemma chunks8_length_le (l : List Nat) (hmod : l.length % 8 = 0) :
    ∀ c ∈ chunks8 l, c.length ≤ 8 := by
  by_cases hl : l = []
  · subst hl
    intro c hc
    simp [chunks8] at hc
  · have h1 : 0 < l.length := List.length_pos.mpr hl
    have h8 : 8 ≤ l.length := by omega
    have hc8 : (l.take 8).length = 8 := by
      rw [List.length_take]
      omega
    intro c hc
    rw [← List.take_append_drop 8 l, chunks8_eq_append _ _ hc8] at hc
    rcases List.mem_cons.mp hc with h | h
    · subst h
      exact le_of_eq hc8
    · exact chunks8_length_le (l.drop 8) (by rw [List.length_drop]; omega) c h
termination_by l.length
decreasing_by
  simp only [List.length_drop]
  omega

/-- Mapping an option-valued function that never fails. -/
lemma mapM_eq_some (L : List (List Nat)) (f : List Nat → Option Nat) (g : List Nat → Nat)
    (h : ∀ c ∈ L, f c = some (g c)) : L.mapM f = some (L.map g) := by
  induction L with
  | nil => rfl
  | cons c t ih =>
    rw [List.mapM_cons, h c (by simp), ih (fun x hx => h x (by simp [hx]))]
    rfl

/-- The checked byte packing never fails. -/
lemma bits_to_bytes_checked_eq (bits : List Nat) :
    bits_to_bytes_checked bits = some (bits_to_bytes bits) := by
  unfold bits_to_bytes_checked bits_to_bytes
  exact mapM_eq_some _ _ packByte (fun c hc =>
    packBitsChecked_eq c 0 0
      (by
        have := chunks8_length_le (padBits bits)
          (by rw [padBits_length]; exact paddedLen_mod _) c hc
        omega))

/-- Claim C8: totality.  Both conditioning stages, modelled with every slice
index and `u8` shift bounds-checked, always return a value: the pair scan only
reads `bits[i]` and `bits[i+1]` for `i < len - 1`, the fallback reads
`bits[0]` only on non-empty input, and the packing shifts stay below 8. -/
theorem claim_C8_totality (bits : List Nat) :
    von_neumann_debias_checked bits = some (von_neumann_debias bits) ∧
    hash_randomness_checked bits = some (hash_randomness bits) := by
  constructor
  · unfold von_neumann_debias_checked von_neumann_debias
    by_cases hlen : bits.length < 2
    · rw [if_pos hlen, if_pos hlen]
    · rw [if_neg hlen, if_neg hlen]
      rw [vnLoopChecked_eq bits 0 [], List.nil_append, List.drop_zero]
      show (if pairScan bits = [] ∧ bits ≠ [] then _ else _) = _
      by_cases hc : pairScan bits = [] ∧ bits ≠ []
      · rw [if_pos hc, if_pos hc]
        have h0 : 0 < bits.length := by omega
        rw [List.getElem?_eq_getElem h0, hc.1]
        rw [List.getD_eq_getElem _ _ h0]
        rfl
      · rw [if_neg hc, if_neg hc]
  · unfold hash_randomness_checked hash_randomness
    by_cases hb : bits = []
    · rw [if_pos hb, if_pos hb]
    · rw [if_neg hb, if_neg hb, bits_to_bytes_checked_eq]

/-! Section: hash whitener (claim C2). -/

/-- The SHA3-256 digest always has exactly 32 bytes. -/
lemma sha3_256_length (msg : List Nat) : (sha3_256 msg).length = 32 := by
  simp [sha3_256]

/-- Claim C2: the whitener.  Empty input gives empty output with no hash
computed; non-empty input gives exactly the LSB-first unpacking of the 32-byte
SHA3-256 digest of the packed input, hence exactly 256 bits.  Determinism is
immediate since the stage is a pure function of its input. -/
theorem claim_C2_hash_whitener (S : List Nat) :
    hash_randomness [] = [] ∧
    (S ≠ [] →
      hash_randomness S = bytes_to_bits (sha3_256 (bits_to_bytes S)) ∧
      (sha3_256 (bits_to_bytes S)).length = 32 ∧
      (hash_randomness S).length = 256) := by
  refine ⟨rfl, fun h => ?_⟩
  have h1 : hash_randomness S = bytes_to_bits (sha3_256 (bits_to_bytes S)) := by
    unfold hash_randomness
    rw [if_neg h]
    rfl
  refine ⟨h1, sha3_256_length _, ?_⟩
  rw [h1, bytes_to_bits_length, sha3_256_length]

/-- Witness for C2 at a one-bit input. -/
theorem claim_C2_witness :
    ([1] : List Nat) ≠ [] ∧ (hash_randomness [1]).length = 256 :=
  ⟨by decide, ((claim_C2_hash_whitener [1]).2 (by decide)).2.2⟩

/-! Section: entropy estimator (claim C7). -/

/-- The guarded two-term sum computed by `estimate_entropy` is the binary
entropy in base 2. -/
lemma entropy_formula (p q : ℝ) (hp : 0 ≤ p) (hq : 0 ≤ q) (hpq : p + q = 1) :
    (if 0 < q then (if 0 < p then 0 - p * Real.logb 2 p else 0) - q * Real.logb 2 q
      else (if 0 < p then 0 - p * Real.logb 2 p else 0)) =
      Real.binEntropy p / Real.log 2 := by
  have hq1 : q = 1 - p := by linarith
  have hlog : (0:ℝ) < Real.log 2 := Real.log_pos one_lt_two
  rcases eq_or_lt_of_le hp with hp0 | hp0
  · rw [← hp0] at hpq ⊢
    rw [if_pos (by linarith), if_neg (by norm_num)]
    rw [show q = 1 by linarith]
    simp [Real.logb_one]
  · rcases eq_or_lt_of_le hq with hq0 | hq0
    · rw [if_neg (by rw [← hq0]; norm_num), if_pos hp0]
      rw [show p = 1 by linarith]
      simp [Real.logb_one]
    · rw [if_pos hq0, if_pos hp0, hq1]
      rw [Real.binEntropy_eq_negMulLog_add_negMulLog_one_sub]
      simp only [Real.negMulLog, ← Real.log_div_log]
      field_simp
      ring

/-- On a non-empty input, `estimate_entropy` equals the base-2 binary entropy
of the observed zero frequency. -/
lemma estimate_entropy_eq (bits : List Nat) (h : bits ≠ []) :
    estimate_entropy bits =
      Real.binEntropy (((bits.length - onesCount bits : Nat) : ℝ) / (bits.length : ℝ)) /
        Real.log 2 := by
  have hn : 0 < bits.length := List.length_pos.mpr h
  have hones : onesCount bits ≤ bits.length := List.length_filter_le _ _
  have hnR : (0:ℝ) < (bits.length : ℝ) := by exact_mod_cast hn
  have hc : ((bits.length - onesCount bits : Nat) : ℝ)
      = (bits.length : ℝ) - (onesCount bits : ℝ) := Nat.cast_sub hones
  unfold estimate_entropy
  rw [if_neg h]
  exact entropy_formula _ _ (div_nonneg (Nat.cast_nonneg _) hnR.le)
    (div_nonneg (Nat.cast_nonneg _) hnR.le)
    (by rw [hc]; field_simp)

/-- Claim C7: the entropy estimator returns the binary Shannon entropy with
zero-probability terms contributing zero; it lies in `[0, 1]` on every input,
and takes the documented values on the spec's examples. -/
theorem claim_C7_entropy :
    (∀ bits : List Nat, 0 ≤ estimate_entropy bits ∧ estimate_entropy bits ≤ 1) ∧
    estimate_entropy [] = 0 ∧
    estimate_entropy [0, 0, 0, 0] = 0 ∧
    estimate_entropy [0, 1, 0, 1] = 1 := by
  have hbounds : ∀ bits : List Nat, 0 ≤ estimate_entropy bits ∧ estimate_entropy bits ≤ 1 := by
    intro bits
    by_cases h : bits = []
    · subst h
      constructor <;> simp [estimate_entropy]
    · rw [estimate_entropy_eq bits h]
      have hn : 0 < bits.length := List.length_pos.mpr h
      have hnR : (0:ℝ) < (bits.length : ℝ) := by exact_mod_cast hn
      have hp0 : (0:ℝ) ≤ ((bits.length - onesCount bits : Nat) : ℝ) / (bits.length : ℝ) :=
        div_nonneg (Nat.cast_nonneg _) hnR.le
      have hp1 : ((bits.length - onesCount bits : Nat) : ℝ) / (bits.length : ℝ) ≤ 1 := by
        rw [div_le_one hnR]
        exact_mod_cast Nat.sub_le _ _
      have hlog : (0:ℝ) < Real.log 2 := Real.log_pos one_lt_two
      exact ⟨div_nonneg (Real.binEntropy_nonneg hp0 hp1) hlog.le,
        (div_le_one hlog).mpr Real.binEntropy_le_log_two⟩
  refine ⟨hbounds, by simp [estimate_entropy], ?_, ?_⟩
  · rw [estimate_entropy_eq _ (by decide)]
    have h1 : onesCount [0, 0, 0, 0] = 0 := by decide
    have h2 : ([0, 0, 0, 0] : List Nat).length = 4 := by decide
    rw [h1, h2]
    norm_num [Real.binEntropy_one]
  · rw [estimate_entropy_eq _ (by decide)]
    have h1 : onesCount [0, 1, 0, 1] = 2 := by decide
    have h2 : ([0, 1, 0, 1] : List Nat).length = 4 := by decide
    rw [h1, h2]
    have h3 : (((4 - 2 : Nat) : ℝ)) / ((4 : Nat) : ℝ) = 2⁻¹ := by norm_num
    rw [h3, Real.binEntropy_two_inv]
    exact div_self (Real.log_pos one_lt_two).ne'


/-! Section: quick randomness test (claim C3). -/

/-- The loop over `1..len` counts exactly the spec's positions `i ≥ 1` with
`bit[i] ≠ bit[i-1]`. -/
lemma transitionCount_eq_spec (bits : List Nat) :
    transitionCount bits = specTransitions bits := by
  unfold transitionCount specTransitions
  cases hn : bits.length with
  | zero => rfl
  | succ m =>
    rw [List.range_eq_range', List.range'_succ, Nat.add_sub_cancel]
    rw [List.filter_cons_of_neg (by simp)]
    congr 1
    apply List.filter_congr
    intro i hi
    have h1 : 1 ≤ i := (List.mem_range'_1.mp hi).1
    rw [decide_eq_true h1, Bool.true_and]

/-- The bias computed by the source (`|mean - 0.5|`) is the spec's bias. -/
lemma bias_eq_spec (bits : List Nat) :
    |(onesCount bits : ℝ) / (bits.length : ℝ) - 0.5| = specBias bits := by
  unfold specBias
  norm_num

/-- Claim C3: the quick test returns the insufficient-data result on fewer
than 100 bits, and otherwise a report whose statistics and verdict are exactly
the spec's formulas and thresholds, with the entropy given by
`estimate_entropy`. -/
theorem claim_C3_quick_test (bits : List Nat) :
    (bits.length < 100 → quick_randomness_test bits = TestResult.insufficient) ∧
    (100 ≤ bits.length → quick_randomness_test bits =
      TestResult.report bits.length (onesCount bits) (bits.length - onesCount bits)
        (specBias bits)
        ((specTransitions bits : ℝ) / ((bits.length - 1 : Nat) : ℝ))
        (estimate_entropy bits)
        (specVerdict (specBias bits) (estimate_entropy bits))) := by
  constructor
  · intro h
    unfold quick_randomness_test
    rw [if_pos h]
  · intro h
    unfold quick_randomness_test
    rw [if_neg (by omega)]
    show TestResult.report bits.length (onesCount bits) (bits.length - onesCount bits)
        |(onesCount bits : ℝ) / (bits.length : ℝ) - 0.5|
        ((transitionCount bits : ℝ) / ((bits.length - 1 : Nat) : ℝ))
        (estimate_entropy bits)
        (if |(onesCount bits : ℝ) / (bits.length : ℝ) - 0.5| < 0.05 ∧
            estimate_entropy bits > 0.95 then Verdict.good
          else if |(onesCount bits : ℝ) / (bits.length : ℝ) - 0.5| < 0.1 ∧
            estimate_entropy bits > 0.9 then Verdict.fair
          else Verdict.poor) = _
    rw [bias_eq_spec, transitionCount_eq_spec]
    rfl

/-- Witness for C3: both branches at concrete inputs; on 100 zero bits the
computed report carries bias 1/2, zero transitions, zero entropy and the Poor
verdict. -/
theorem claim_C3_witness :
    (List.replicate 5 (0 : Nat)).length < 100 ∧
      quick_randomness_test (List.replicate 5 0) = TestResult.insufficient ∧
      100 ≤ (List.replicate 100 (0 : Nat)).length ∧
      quick_randomness_test (List.replicate 100 0) =
        TestResult.report 100 0 100 (specBias (List.replicate 100 0))
          ((specTransitions (List.replicate 100 0) : ℝ) / ((100 - 1 : Nat) : ℝ))
          (estimate_entropy (List.replicate 100 0))
          (specVerdict (specBias (List.replicate 100 0))
            (estimate_entropy (List.replicate 100 0))) ∧
      specBias (List.replicate 100 0) = 1 / 2 ∧
      specTransitions (List.replicate 100 0) = 0 ∧
      estimate_entropy (List.replicate 100 0) = 0 ∧
      specVerdict (specBias (List.replicate 100 0))
        (estimate_entropy (List.replicate 100 0)) = Verdict.poor := by
  have hlen : (List.replicate 100 (0 : Nat)).length = 100 := by decide
  have hones : onesCount (List.replicate 100 (0 : Nat)) = 0 := by decide
  have hbias : specBias (List.replicate 100 (0 : Nat)) = 1 / 2 := by
    unfold specBias
    rw [hones, hlen]
    norm_num
  have hent : estimate_entropy (List.replicate 100 (0 : Nat)) = 0 := by
    rw [estimate_entropy_eq _ (by decide), hones, hlen]
    norm_num [Real.binEntropy_one]
  have hverdict : specVerdict (specBias (List.replicate 100 0))
      (estimate_entropy (List.replicate 100 0)) = Verdict.poor := by
    rw [hbias, hent]
    unfold specVerdict
    rw [if_neg (by norm_num), if_neg (by norm_num)]
  refine ⟨by decide, (claim_C3_quick_test _).1 (by decide), by decide, ?_, hbias, ?_, hent,
    hverdict⟩
  · have := (claim_C3_quick_test (List.replicate 100 0)).2 (by decide)
    rw [this, hlen, hones]
  · decide
